import Mathlib

/-!
Verification of the Team-Generator program (src/main.js).

The program schedules an 8-player game: round by round it partitions the
roster into 4 teammate pairs via a backtracking search, until the memo
matrix records that every player has been paired with every other player.

The embedding is generic over a player type `γ` with decidable equality
(JavaScript `===` on the string identifiers) and a JS-truthiness predicate
(`JsValue.falsy`; the only falsy string is `""`).  The claims about the
program instantiate `γ := String`; a canonical run over `γ := Nat` is used
to compute concrete schedules cheaply and transfer them to arbitrary
rosters through a mapping (simulation) lemma.

Recursion in `_createTeam` and the `while` loop of `createTeams` is
embedded with explicit fuel, so every definition reduces in the kernel;
running out of fuel yields the distinguished error "search fuel exhausted",
which no actual JavaScript execution path produces.
-/

/-- JS truthiness for the values the program compares: `falsy x = true`
models `!x` in JavaScript. -/
class JsValue (γ : Type) where
  falsy : γ → Bool

instance : JsValue String := ⟨fun s => s == ""⟩

instance : JsValue Nat := ⟨fun n => n == 0⟩

section Defs

variable {γ δ : Type} [DecidableEq γ] [JsValue γ] [DecidableEq δ] [JsValue δ]

/-- The class `Pairing`, whose field `value = [p1, p2]` (src/main.js lines 23-29). -/
structure Pairing (γ : Type) where
  p1 : γ
  p2 : γ
deriving DecidableEq, Repr

/-- The `Pairing` constructor: throws unless both players are truthy and
distinct (line 25).  Exceptions are modelled with `Except`. -/
def Pairing.mk? (p1 p2 : γ) : Except String (Pairing γ) :=
  if JsValue.falsy p1 || JsValue.falsy p2 || decide (p1 = p2) then
    .error "A pairing must include two unique players."
  else
    .ok ⟨p1, p2⟩

/-- The class `PossibleTeam` (lines 10-21). -/
structure PossibleTeam (γ : Type) where
  possible : Bool
  configuration : List (Pairing γ)
deriving DecidableEq, Repr

/-- The mutable state of class `TeamConfigurations`: `this.teams`,
`this.players`, `this.memo` (lines 55-64). -/
structure TeamConfigurations (γ : Type) where
  teams : List (List (Pairing γ))
  players : List γ
  memo : List (List Nat)
deriving DecidableEq, Repr

/-- Helper for `_.unique(players)` (underscore.js `uniq`): keeps the first
occurrence of each value, comparing with `===`; `seen` accumulates the
values already emitted. -/
def jsUniqueAux (seen : List γ) : List γ → List γ
  | [] => []
  | a :: rest => if a ∈ seen then jsUniqueAux seen rest else a :: jsUniqueAux (a :: seen) rest

/-- The call `_.unique(players)` (line 47). -/
def jsUnique (l : List γ) : List γ := jsUniqueAux [] l

/-- The method `Array.prototype.indexOf` with `===`.  On absent elements JavaScript
returns `-1` and the subsequent `this.memo[-1][j]` access would throw; the
program only ever looks up members of `this.players`, where the element is
present, so we return the list length in the absent case. -/
def idxOf (x : γ) : List γ → Nat
  | [] => 0
  | a :: rest => if a = x then 0 else idxOf x rest + 1

/-- Read `memo[i][j]`; out-of-range reads (unreachable in program runs)
default to `0`. -/
def mget (memo : List (List Nat)) (i j : Nat) : Nat :=
  (memo.getD i []).getD j 0

/-- Write `memo[i][j] = v`; out-of-range writes (unreachable in program
runs) are dropped. -/
def mset (memo : List (List Nat)) (i j v : Nat) : List (List Nat) :=
  memo.set i ((memo.getD i []).set j v)

/-- The fresh all-zero memo built by the constructor (lines 60-64), and the
initial engine state for a roster accepted by the constructor. -/
def initState (players : List γ) : TeamConfigurations γ :=
  ⟨[], players, List.replicate players.length (List.replicate players.length 0)⟩

/-- The constructor `new TeamConfigurations(players)` (lines 46-65): rejects duplicate
identifiers, then rosters whose size is not 8. -/
def TeamConfigurations.mk? (players : List γ) : Except String (TeamConfigurations γ) :=
  if (jsUnique players).length ≠ players.length then
    .error "Player identifiers must be unique"
  else if players.length ≠ 8 then
    .error ("8 players needed. You provided " ++ toString players.length ++ ".")
  else
    .ok (initState players)

/-- The method `_updateMemo(validTeam)` (lines 93-100): for each pairing, mark
`memo[p1][p2]` and then `memo[p2][p1]`. -/
def updateMemo (players : List γ) : List (List Nat) → List (Pairing γ) → List (List Nat)
  | memo, [] => memo
  | memo, p :: rest =>
      updateMemo players
        (mset (mset memo (idxOf p.p1 players) (idxOf p.p2 players) 1)
          (idxOf p.p2 players) (idxOf p.p1 players) 1)
        rest

/-- The method `_allTeamsGenerated()` (lines 105-112): every memo row sums to
`players.length - 1`. -/
def allTeamsGenerated (tc : TeamConfigurations γ) : Bool :=
  tc.memo.all fun row => row.foldl (· + ·) 0 == tc.players.length - 1

/-- The call `_.last(team)` (line 121). -/
def jsLast : List γ → Option γ
  | [] => none
  | [a] => some a
  | _ :: b :: rest => jsLast (b :: rest)

/-- The guard of lines 121-128: the partial round is rejected when its most
recently added pairing is already marked in the memo (`memo[i][j]` truthy). -/
def repeatCheck (players : List γ) (memo : List (List Nat)) (team : List (Pairing γ)) : Bool :=
  match jsLast team with
  | some lp => mget memo (idxOf lp.p1 players) (idxOf lp.p2 players) != 0
  | none => false

/-- The candidate pairs `(choices[player1Idx], choices[player2Idx])` of the
nested loops of lines 135-146, in exactly the loop order (`player1Idx`
ascending, `player2Idx` from `player1Idx + 1` ascending); `choices` is not
mutated during the loops, so the elements may be listed up front. -/
def candPairs : List γ → List (γ × γ)
  | [] => []
  | a :: rest => (rest.map fun b => (a, b)) ++ candPairs rest

/-- The call `_.without(choices, a, b)`: every element `===` to `a` or `b`
removed (line 138). -/
def without (l : List γ) (a b : γ) : List γ :=
  l.filter fun x => !(decide (x = a) || decide (x = b))

/-- The two recursion shapes inside `_createTeam`: entry into the function
body, and the remaining candidate iterations of the nested loops. -/
inductive SearchCall (γ : Type) where
  | createTeam (team : List (Pairing γ)) (choices : List γ)
  | tryCands (team : List (Pairing γ)) (choices : List γ) (cands : List (γ × γ))
deriving Repr

/-- The method `_createTeam(team, choices)` (lines 120-148) together with its nested
candidate loops, fuelled.  A `.createTeam` step performs the repeat check
and the base case; a `.tryCands` step runs one iteration of the candidate
loops: build the pairing (which may throw), recurse on the rest of the
choices, return the first success, and fall through to the next candidate
on failure.  Exhausted candidates give `possible = false` (line 147). -/
def search (players : List γ) (memo : List (List Nat)) :
    Nat → SearchCall γ → Except String (PossibleTeam γ)
  | 0, _ => .error "search fuel exhausted"
  | fuel + 1, .createTeam team choices =>
      if repeatCheck players memo team then .ok ⟨false, []⟩
      else if choices.length = 0 then .ok ⟨true, team⟩
      else search players memo fuel (.tryCands team choices (candPairs choices))
  | _ + 1, .tryCands _ _ [] => .ok ⟨false, []⟩
  | fuel + 1, .tryCands team choices ((a, b) :: rest) =>
      match Pairing.mk? a b with
      | .error e => .error e
      | .ok p =>
        match search players memo fuel (.createTeam (team ++ [p]) (without choices a b)) with
        | .error e => .error e
        | .ok pt =>
          if pt.possible then .ok pt
          else search players memo fuel (.tryCands team choices rest)

/-- The method `createTeams()` (lines 67-77): while not all teams are generated, run
the round search from an empty partial round over the full roster; on
success push the round and fold it into the memo, on failure retry with
unchanged state.  `.ok none` means the loop fuel ran out with the loop
still running (the JavaScript loop is unbounded); `.ok (some tc)` is normal
termination, whose `tc.teams` is the returned schedule. -/
def createTeams (searchFuel : Nat) :
    Nat → TeamConfigurations γ → Except String (Option (TeamConfigurations γ))
  | 0, _ => .ok none
  | fuel + 1, tc =>
      if allTeamsGenerated tc then .ok (some tc)
      else
        match search tc.players tc.memo searchFuel (.createTeam [] tc.players) with
        | .error e => .error e
        | .ok pt =>
          if pt.possible then
            createTeams searchFuel fuel
              { tc with
                teams := tc.teams ++ [pt.configuration],
                memo := updateMemo tc.players tc.memo pt.configuration }
          else createTeams searchFuel fuel tc

/-- Number of pairings equal (as unordered pairs, cf. `Pairing.equals`) to
`{a, b}` in one round. -/
def pairHas (a b : γ) (p : Pairing γ) : Bool :=
  (decide (p.p1 = a) && decide (p.p2 = b)) || (decide (p.p1 = b) && decide (p.p2 = a))

/-- Number of pairings equal to the unordered pair `{a, b}` across a whole
schedule. -/
def pairOccTotal (a b : γ) : List (List (Pairing γ)) → Nat
  | [] => 0
  | r :: rest => r.countP (pairHas a b) + pairOccTotal a b rest

/-- All players mentioned by a round, in order. -/
def roundMembers : List (Pairing γ) → List γ
  | [] => []
  | p :: rest => p.p1 :: p.p2 :: roundMembers rest

end Defs

section MapDefs

variable {γ δ : Type} [DecidableEq γ] [JsValue γ] [DecidableEq δ] [JsValue δ]

/-- Rename the players of a pairing along `f`. -/
def mapPair (f : γ → δ) (p : Pairing γ) : Pairing δ := ⟨f p.p1, f p.p2⟩

/-- Rename the players of a search result along `f`. -/
def mapPT (f : γ → δ) (pt : PossibleTeam γ) : PossibleTeam δ :=
  ⟨pt.possible, pt.configuration.map (mapPair f)⟩

/-- Rename the players of a recursion argument along `f`. -/
def mapCall (f : γ → δ) : SearchCall γ → SearchCall δ
  | .createTeam team choices => .createTeam (team.map (mapPair f)) (choices.map f)
  | .tryCands team choices cands =>
      .tryCands (team.map (mapPair f)) (choices.map f) (cands.map fun c => (f c.1, f c.2))

/-- Rename the players of an engine state along `f`; the memo matrix is
index-based and does not change. -/
def mapState (f : γ → δ) (tc : TeamConfigurations γ) : TeamConfigurations δ :=
  ⟨tc.teams.map (List.map (mapPair f)), tc.players.map f, tc.memo⟩

end MapDefs

/-! ### The canonical run

`createTeams` over the roster `[1, …, 8]` (with `γ := Nat`; only decidable
equality and truthiness of the identifiers matter, and `1, …, 8` are
pairwise distinct and truthy just like the string identifiers of the
program).  The final state below is reachable with loop fuel 8 and search
fuel 32, checked by `canonEval` through kernel reduction. -/

def canonPlayers : List Nat := [1, 2, 3, 4, 5, 6, 7, 8]

def canonTeams : List (List (Pairing Nat)) :=
  [[⟨1, 2⟩, ⟨3, 4⟩, ⟨5, 6⟩, ⟨7, 8⟩],
   [⟨1, 3⟩, ⟨2, 4⟩, ⟨5, 7⟩, ⟨6, 8⟩],
   [⟨1, 4⟩, ⟨2, 3⟩, ⟨5, 8⟩, ⟨6, 7⟩],
   [⟨1, 5⟩, ⟨2, 6⟩, ⟨3, 7⟩, ⟨4, 8⟩],
   [⟨1, 6⟩, ⟨2, 5⟩, ⟨3, 8⟩, ⟨4, 7⟩],
   [⟨1, 7⟩, ⟨2, 8⟩, ⟨3, 5⟩, ⟨4, 6⟩],
   [⟨1, 8⟩, ⟨2, 7⟩, ⟨3, 6⟩, ⟨4, 5⟩]]

/-- The fully marked memo matrix: every off-diagonal entry used. -/
def fullMemo : List (List Nat) :=
  [[0, 1, 1, 1, 1, 1, 1, 1],
   [1, 0, 1, 1, 1, 1, 1, 1],
   [1, 1, 0, 1, 1, 1, 1, 1],
   [1, 1, 1, 0, 1, 1, 1, 1],
   [1, 1, 1, 1, 0, 1, 1, 1],
   [1, 1, 1, 1, 1, 0, 1, 1],
   [1, 1, 1, 1, 1, 1, 0, 1],
   [1, 1, 1, 1, 1, 1, 1, 0]]

def canonFinal : TeamConfigurations Nat := ⟨canonTeams, canonPlayers, fullMemo⟩

theorem canonEval : createTeams 32 8 (initState canonPlayers) = .ok (some canonFinal) := rfl

/-- The roster of the program's first instantiation, `tc1` (line 151). -/
def strPlayers : List String := ["1", "2", "3", "4", "5", "6", "7", "8"]

def strTeams : List (List (Pairing String)) :=
  [[⟨"1", "2"⟩, ⟨"3", "4"⟩, ⟨"5", "6"⟩, ⟨"7", "8"⟩],
   [⟨"1", "3"⟩, ⟨"2", "4"⟩, ⟨"5", "7"⟩, ⟨"6", "8"⟩],
   [⟨"1", "4"⟩, ⟨"2", "3"⟩, ⟨"5", "8"⟩, ⟨"6", "7"⟩],
   [⟨"1", "5"⟩, ⟨"2", "6"⟩, ⟨"3", "7"⟩, ⟨"4", "8"⟩],
   [⟨"1", "6"⟩, ⟨"2", "5"⟩, ⟨"3", "8"⟩, ⟨"4", "7"⟩],
   [⟨"1", "7"⟩, ⟨"2", "8"⟩, ⟨"3", "5"⟩, ⟨"4", "6"⟩],
   [⟨"1", "8"⟩, ⟨"2", "7"⟩, ⟨"3", "6"⟩, ⟨"4", "5"⟩]]

def strFinal : TeamConfigurations String := ⟨strTeams, strPlayers, fullMemo⟩

theorem strRunEq : createTeams 32 8 (initState strPlayers) = .ok (some strFinal) := rfl

/-! ### Basic lemmas about the list helpers -/

set_option linter.unusedSectionVars false

section PureListLemmas

variable {γ δ : Type}

theorem jsLast_map (f : γ → δ) : ∀ l : List γ, jsLast (l.map f) = (jsLast l).map f := by
  intro l
  induction l with
  | nil => rfl
  | cons a rest ih =>
    cases rest with
    | nil => rfl
    | cons b rest2 => simpa [jsLast] using ih

theorem jsLast_mem : ∀ {l : List γ} {a : γ}, jsLast l = some a → a ∈ l := by
  intro l
  induction l with
  | nil => intro a h; cases h
  | cons c rest ih =>
    intro a h
    cases rest with
    | nil =>
      have : c = a := by simpa [jsLast] using h
      simp [this]
    | cons b rest2 =>
      have h2 : jsLast (b :: rest2) = some a := h
      exact List.mem_cons_of_mem c (ih h2)

theorem jsLast_cons_ne_none : ∀ (c : γ) (rest : List γ), jsLast (c :: rest) ≠ none := by
  intro c rest
  induction rest generalizing c with
  | nil => simp [jsLast]
  | cons b rest2 ih => exact ih b

theorem jsLast_none : ∀ {l : List γ}, jsLast l = none → l = [] := by
  intro l h
  cases l with
  | nil => rfl
  | cons c rest => exact absurd h (jsLast_cons_ne_none c rest)

theorem jsLast_decomp : ∀ {l : List γ} {a : γ}, jsLast l = some a → l.dropLast ++ [a] = l := by
  intro l
  induction l with
  | nil => intro a h; cases h
  | cons c rest ih =>
    intro a h
    cases rest with
    | nil =>
      have : c = a := by simpa [jsLast] using h
      simp [this]
    | cons b rest2 =>
      have h2 : jsLast (b :: rest2) = some a := h
      simpa using ih h2

theorem candPairs_mem : ∀ {l : List γ} {c : γ × γ}, c ∈ candPairs l → c.1 ∈ l ∧ c.2 ∈ l := by
  intro l
  induction l with
  | nil => intro c h; simp [candPairs] at h
  | cons a rest ih =>
    intro c h
    simp only [candPairs, List.mem_append, List.mem_map] at h
    rcases h with ⟨b, hb, rfl⟩ | h
    · exact ⟨by simp, by simp [hb]⟩
    · have := ih h
      exact ⟨List.mem_cons_of_mem a this.1, List.mem_cons_of_mem a this.2⟩

theorem candPairs_map (f : γ → δ) :
    ∀ l : List γ, candPairs (l.map f) = (candPairs l).map fun c => (f c.1, f c.2) := by
  intro l
  induction l with
  | nil => rfl
  | cons a rest ih => simp [candPairs, ih, List.map_map, Function.comp]

theorem getD_replicate_cases {x d : γ} : ∀ n i, (List.replicate n x).getD i d = x ∨
    (List.replicate n x).getD i d = d := by
  intro n
  induction n with
  | zero => intro i; right; cases i <;> rfl
  | succ n ih =>
    intro i
    cases i with
    | zero => left; rfl
    | succ i => simpa [List.replicate] using ih i

theorem mget_replicate_zero (n i j : Nat) :
    mget (List.replicate n (List.replicate n 0)) i j = 0 := by
  unfold mget
  rcases getD_replicate_cases (x := List.replicate n 0) (d := ([] : List Nat)) n i with h | h <;>
    rw [h]
  · rcases getD_replicate_cases (x := (0 : Nat)) (d := (0 : Nat)) n j with h2 | h2 <;> rw [h2]
  · cases j <;> rfl

end PureListLemmas

section EqListLemmas

variable {γ δ : Type} [DecidableEq γ] [DecidableEq δ]

theorem without_sub {l : List γ} {a b x : γ} (h : x ∈ without l a b) : x ∈ l :=
  (List.mem_filter.mp h).1

theorem without_nodup {l : List γ} (a b : γ) (h : l.Nodup) : (without l a b).Nodup :=
  h.filter _

theorem without_map (f : γ → δ) {l : List γ} {a b : γ}
    (hx : ∀ x ∈ l, (f x = f a ↔ x = a) ∧ (f x = f b ↔ x = b)) :
    without (l.map f) (f a) (f b) = (without l a b).map f := by
  induction l with
  | nil => rfl
  | cons c rest ih =>
    have hc := hx c (by simp)
    have h1 : decide (f c = f a) = decide (c = a) := decide_eq_decide.mpr hc.1
    have h2 : decide (f c = f b) = decide (c = b) := decide_eq_decide.mpr hc.2
    have ihr := ih fun x hxr => hx x (by simp [hxr])
    simp only [without] at ihr ⊢
    simp only [List.map, List.filter_cons, h1, h2]
    by_cases hb2 : (!(decide (c = a) || decide (c = b))) = true
    · rw [if_pos hb2, if_pos hb2, List.map_cons, ihr]
    · rw [if_neg hb2, if_neg hb2, ihr]

theorem idxOf_map (f : γ → δ) :
    ∀ (l : List γ) (x : γ), (∀ a ∈ l, (f a = f x ↔ a = x)) →
      idxOf (f x) (l.map f) = idxOf x l := by
  intro l x
  induction l with
  | nil => intro _; rfl
  | cons a rest ih =>
    intro h
    have ha := h a (by simp)
    simp only [List.map, idxOf]
    by_cases hax : a = x
    · rw [if_pos hax, if_pos (ha.mpr hax)]
    · rw [if_neg hax, if_neg (fun hh => hax (ha.mp hh)),
        ih fun b hb => h b (by simp [hb])]

theorem jsUniqueAux_sublist : ∀ (seen l : List γ), (jsUniqueAux seen l).Sublist l := by
  intro seen l
  induction l generalizing seen with
  | nil => simp [jsUniqueAux]
  | cons a rest ih =>
    simp only [jsUniqueAux]
    by_cases h : a ∈ seen
    · rw [if_pos h]; exact (ih seen).cons a
    · rw [if_neg h]; exact (ih (a :: seen)).cons₂ a

theorem jsUniqueAux_eq_self : ∀ (seen l : List γ), l.Nodup → (∀ a ∈ l, a ∉ seen) →
    jsUniqueAux seen l = l := by
  intro seen l
  induction l generalizing seen with
  | nil => intro _ _; rfl
  | cons a rest ih =>
    intro hnd hs
    simp only [jsUniqueAux, if_neg (hs a (by simp))]
    rw [ih (a :: seen) hnd.of_cons]
    intro b hb
    simp only [List.mem_cons, not_or]
    exact ⟨fun hba => (List.nodup_cons.mp hnd).1 (hba ▸ hb), hs b (by simp [hb])⟩

theorem nodup_of_jsUniqueAux_eq : ∀ (seen l : List γ), jsUniqueAux seen l = l →
    l.Nodup ∧ ∀ a ∈ l, a ∉ seen := by
  intro seen l
  induction l generalizing seen with
  | nil => intro _; exact ⟨List.nodup_nil, by simp⟩
  | cons a rest ih =>
    intro h
    simp only [jsUniqueAux] at h
    by_cases hs : a ∈ seen
    · rw [if_pos hs] at h
      exfalso
      have hlen := congrArg List.length h
      have hsub := (jsUniqueAux_sublist seen rest).length_le
      simp only [List.length_cons] at hlen
      omega
    · rw [if_neg hs] at h
      have htail : jsUniqueAux (a :: seen) rest = rest := by
        injection h
      obtain ⟨hnd, hmem⟩ := ih (a :: seen) htail
      refine ⟨List.nodup_cons.mpr ⟨fun hmem2 => ?_, hnd⟩, ?_⟩
      · exact (hmem a hmem2) (by simp)
      · intro b hb
        rcases List.mem_cons.mp hb with rfl | hb2
        · exact hs
        · exact fun hbs => (hmem b hb2) (by simp [hbs])

theorem jsUnique_length_iff (l : List γ) : (jsUnique l).length = l.length ↔ l.Nodup := by
  constructor
  · intro h
    exact (nodup_of_jsUniqueAux_eq [] l ((jsUniqueAux_sublist [] l).eq_of_length h)).1
  · intro h
    rw [jsUnique, jsUniqueAux_eq_self [] l h (by simp)]

end EqListLemmas

/-! ### Unfolding lemmas for the fuelled search -/

section StepLemmas

variable {γ : Type} [DecidableEq γ] [JsValue γ]
variable (players : List γ) (memo : List (List Nat))

theorem search_zero (call : SearchCall γ) :
    search players memo 0 call = .error "search fuel exhausted" := rfl

theorem search_createTeam (fuel : Nat) (team : List (Pairing γ)) (choices : List γ) :
    search players memo (fuel + 1) (.createTeam team choices) =
      if repeatCheck players memo team then .ok ⟨false, []⟩
      else if choices.length = 0 then .ok ⟨true, team⟩
      else search players memo fuel (.tryCands team choices (candPairs choices)) := rfl

theorem search_tryNil (fuel : Nat) (team : List (Pairing γ)) (choices : List γ) :
    search players memo (fuel + 1) (.tryCands team choices []) = .ok ⟨false, []⟩ := rfl

theorem search_tryCons (fuel : Nat) (team : List (Pairing γ)) (choices : List γ)
    (a b : γ) (rest : List (γ × γ)) :
    search players memo (fuel + 1) (.tryCands team choices ((a, b) :: rest)) =
      match Pairing.mk? a b with
      | .error e => .error e
      | .ok p =>
        match search players memo fuel (.createTeam (team ++ [p]) (without choices a b)) with
        | .error e => .error e
        | .ok pt =>
          if pt.possible then .ok pt
          else search players memo fuel (.tryCands team choices rest) := rfl

theorem createTeams_zero (S : Nat) (tc : TeamConfigurations γ) :
    createTeams S 0 tc = .ok none := rfl

theorem createTeams_succ (S F : Nat) (tc : TeamConfigurations γ) :
    createTeams S (F + 1) tc =
      if allTeamsGenerated tc then .ok (some tc)
      else
        match search tc.players tc.memo S (.createTeam [] tc.players) with
        | .error e => .error e
        | .ok pt =>
          if pt.possible then
            createTeams S F
              { tc with
                teams := tc.teams ++ [pt.configuration],
                memo := updateMemo tc.players tc.memo pt.configuration }
          else createTeams S F tc := rfl

end StepLemmas

/-! ### The mapping (simulation) lemma: renaming players along an injective,
truthiness-preserving function commutes with every operation of the
program, because the program only ever compares players with `===`,
tests their truthiness, and looks up their roster index. -/

section SimLemmas

variable {γ δ : Type} [DecidableEq γ] [JsValue γ] [DecidableEq δ] [JsValue δ]

theorem injOn_iff {f : γ → δ} {players : List γ}
    (hinj : ∀ a ∈ players, ∀ b ∈ players, f a = f b → a = b) {x : γ} (hx : x ∈ players) :
    ∀ a ∈ players, (f a = f x ↔ a = x) :=
  fun a ha => ⟨fun h => hinj a ha x hx h, fun h => h ▸ rfl⟩

theorem mkPairing_ok {a b : γ} {p : Pairing γ} (h : Pairing.mk? a b = .ok p) :
    p = ⟨a, b⟩ ∧ JsValue.falsy a = false ∧ JsValue.falsy b = false ∧ a ≠ b := by
  unfold Pairing.mk? at h
  by_cases hcond : (JsValue.falsy a || JsValue.falsy b || decide (a = b)) = true
  · rw [if_pos hcond] at h; cases h
  · rw [if_neg hcond] at h
    injection h with h2
    simp only [Bool.or_eq_true, decide_eq_true_eq, not_or, Bool.not_eq_true] at hcond
    exact ⟨h2.symm, hcond.1.1, hcond.1.2, hcond.2⟩

theorem mkPairing_map (f : γ → δ) {a b : γ}
    (hfa : JsValue.falsy (f a) = JsValue.falsy a)
    (hfb : JsValue.falsy (f b) = JsValue.falsy b)
    (hab : f a = f b ↔ a = b) :
    Pairing.mk? (f a) (f b) = (Pairing.mk? a b).map (mapPair f) := by
  unfold Pairing.mk?
  rw [show (JsValue.falsy (f a) || JsValue.falsy (f b) || decide (f a = f b)) =
      (JsValue.falsy a || JsValue.falsy b || decide (a = b)) by
    rw [hfa, hfb, decide_eq_decide.mpr hab]]
  by_cases h : (JsValue.falsy a || JsValue.falsy b || decide (a = b)) = true
  · rw [if_pos h, if_pos h]; rfl
  · rw [if_neg h, if_neg h]; rfl

theorem repeatCheck_map (f : γ → δ) (players : List γ) (memo : List (List Nat))
    (team : List (Pairing γ))
    (hinj : ∀ a ∈ players, ∀ b ∈ players, f a = f b → a = b)
    (hteam : ∀ p ∈ team, p.p1 ∈ players ∧ p.p2 ∈ players) :
    repeatCheck (players.map f) memo (team.map (mapPair f)) = repeatCheck players memo team := by
  unfold repeatCheck
  rw [jsLast_map]
  cases hl : jsLast team with
  | none => rfl
  | some lp =>
    have hmem := hteam lp (jsLast_mem hl)
    show (mget memo (idxOf ((mapPair f lp).p1) (players.map f))
        (idxOf ((mapPair f lp).p2) (players.map f)) != 0) = _
    rw [show (mapPair f lp).p1 = f lp.p1 from rfl, show (mapPair f lp).p2 = f lp.p2 from rfl,
      idxOf_map f players lp.p1 (injOn_iff hinj hmem.1),
      idxOf_map f players lp.p2 (injOn_iff hinj hmem.2)]

/-- The roster-membership invariants maintained by the recursion of
`_createTeam`: every player mentioned by the partial round, the remaining
choices, and the pending candidates is a roster member. -/
def callInv (players : List γ) : SearchCall γ → Prop
  | .createTeam team choices =>
      (∀ p ∈ team, p.p1 ∈ players ∧ p.p2 ∈ players) ∧ ∀ x ∈ choices, x ∈ players
  | .tryCands team choices cands =>
      (∀ p ∈ team, p.p1 ∈ players ∧ p.p2 ∈ players) ∧ (∀ x ∈ choices, x ∈ players) ∧
        ∀ c ∈ cands, c.1 ∈ players ∧ c.2 ∈ players

theorem searchSim (f : γ → δ) (players : List γ) (memo : List (List Nat))
    (hinj : ∀ a ∈ players, ∀ b ∈ players, f a = f b → a = b)
    (hfal : ∀ a ∈ players, JsValue.falsy (f a) = JsValue.falsy a) :
    ∀ (fuel : Nat) (call : SearchCall γ), callInv players call →
      search (players.map f) memo fuel (mapCall f call) =
        (search players memo fuel call).map (mapPT f) := by
  intro fuel
  induction fuel with
  | zero => intro call _; cases call <;> rfl
  | succ fuel ih =>
    intro call hcall
    cases call with
    | createTeam team choices =>
      obtain ⟨hteam, hch⟩ := hcall
      rw [show mapCall f (.createTeam team choices) =
          SearchCall.createTeam (team.map (mapPair f)) (choices.map f) from rfl,
        search_createTeam, search_createTeam,
        repeatCheck_map f players memo team hinj hteam]
      by_cases hrc : repeatCheck players memo team = true
      · rw [if_pos hrc, if_pos hrc]; rfl
      · rw [if_neg hrc, if_neg hrc, List.length_map]
        by_cases hlen : choices.length = 0
        · rw [if_pos hlen, if_pos hlen]; rfl
        · rw [if_neg hlen, if_neg hlen, candPairs_map]
          exact ih (.tryCands team choices (candPairs choices))
            ⟨hteam, hch, fun c hc => ⟨hch _ (candPairs_mem hc).1, hch _ (candPairs_mem hc).2⟩⟩
    | tryCands team choices cands =>
      obtain ⟨hteam, hch, hcands⟩ := hcall
      cases cands with
      | nil =>
        rw [show mapCall f (.tryCands team choices []) =
            SearchCall.tryCands (team.map (mapPair f)) (choices.map f) [] from rfl,
          search_tryNil, search_tryNil]
        rfl
      | cons c rest =>
        obtain ⟨a, b⟩ := c
        obtain ⟨ha, hb⟩ := hcands (a, b) (by simp)
        rw [show mapCall f (.tryCands team choices ((a, b) :: rest)) =
            SearchCall.tryCands (team.map (mapPair f)) (choices.map f)
              ((f a, f b) :: rest.map fun c => (f c.1, f c.2)) from rfl,
          search_tryCons, search_tryCons,
          mkPairing_map f (hfal a ha) (hfal b hb) (injOn_iff hinj hb a ha)]
        cases hmk : Pairing.mk? a b with
        | error e => rfl
        | ok p =>
          obtain ⟨hp, hfa2, hfb2, hab2⟩ := mkPairing_ok hmk
          subst hp
          simp only [Except.map]
          have hwm : without (choices.map f) (f a) (f b) = (without choices a b).map f :=
            without_map f fun x hxm =>
              ⟨injOn_iff hinj ha x (hch x hxm), injOn_iff hinj hb x (hch x hxm)⟩
          have hrec := ih (.createTeam (team ++ [⟨a, b⟩]) (without choices a b))
            ⟨fun q hq2 => by
                rcases List.mem_append.mp hq2 with hq3 | hq3
                · exact hteam q hq3
                · simp only [List.mem_singleton] at hq3
                  subst hq3
                  exact ⟨ha, hb⟩,
              fun x hx => hch x (without_sub hx)⟩
          simp only [mapCall, List.map_append, List.map_cons, List.map_nil] at hrec
          rw [hwm, hrec]
          cases hrecv : search players memo fuel
              (.createTeam (team ++ [⟨a, b⟩]) (without choices a b)) with
          | error e => rfl
          | ok pt =>
            simp only [Except.map]
            by_cases hposs : pt.possible = true
            · rw [if_pos hposs, if_pos (show (mapPT f pt).possible = true from hposs)]
            · rw [if_neg hposs, if_neg (show ¬ (mapPT f pt).possible = true from hposs)]
              exact ih (.tryCands team choices rest)
                ⟨hteam, hch, fun c hc => hcands c (by simp [hc])⟩

end SimLemmas

section SimLoop

variable {γ δ : Type} [DecidableEq γ] [JsValue γ] [DecidableEq δ] [JsValue δ]

theorem search_members (players : List γ) (memo : List (List Nat)) :
    ∀ (fuel : Nat) (call : SearchCall γ) (t : List (Pairing γ)), callInv players call →
      search players memo fuel call = .ok ⟨true, t⟩ →
      ∀ p ∈ t, p.p1 ∈ players ∧ p.p2 ∈ players := by
  intro fuel
  induction fuel with
  | zero => intro call t _ h; cases h
  | succ fuel ih =>
    intro call t hcall h
    cases call with
    | createTeam team choices =>
      obtain ⟨hteam, hch⟩ := hcall
      rw [search_createTeam] at h
      by_cases hrc : repeatCheck players memo team = true
      · rw [if_pos hrc] at h; simp at h
      · rw [if_neg hrc] at h
        by_cases hlen : choices.length = 0
        · rw [if_pos hlen] at h
          simp only [Except.ok.injEq, PossibleTeam.mk.injEq, true_and] at h
          exact h ▸ hteam
        · rw [if_neg hlen] at h
          exact ih (SearchCall.tryCands team choices (candPairs choices)) t
            ⟨hteam, hch, fun c hc => ⟨hch _ (candPairs_mem hc).1, hch _ (candPairs_mem hc).2⟩⟩ h
    | tryCands team choices cands =>
      obtain ⟨hteam, hch, hcands⟩ := hcall
      cases cands with
      | nil => rw [search_tryNil] at h; simp at h
      | cons c rest =>
        obtain ⟨a, b⟩ := c
        obtain ⟨ha, hb⟩ := hcands (a, b) (by simp)
        rw [search_tryCons] at h
        split at h
        · cases h
        · rename_i p hmk
          obtain ⟨hp, _, _, _⟩ := mkPairing_ok hmk
          subst hp
          split at h
          · cases h
          · rename_i pt hrecv
            split at h
            · rename_i hposs
              injection h with h2
              subst h2
              exact ih (.createTeam (team ++ [⟨a, b⟩]) (without choices a b)) t
                ⟨fun q hq2 => by
                    rcases List.mem_append.mp hq2 with hq3 | hq3
                    · exact hteam q hq3
                    · simp only [List.mem_singleton] at hq3
                      subst hq3
                      exact ⟨ha, hb⟩,
                  fun x hx => hch x (without_sub hx)⟩
                hrecv
            · exact ih (.tryCands team choices rest) t
                ⟨hteam, hch, fun c hc => hcands c (by simp [hc])⟩ h

theorem updateMemo_map (f : γ → δ) (players : List γ)
    (hinj : ∀ a ∈ players, ∀ b ∈ players, f a = f b → a = b) :
    ∀ (memo : List (List Nat)) (config : List (Pairing γ)),
      (∀ p ∈ config, p.p1 ∈ players ∧ p.p2 ∈ players) →
      updateMemo (players.map f) memo (config.map (mapPair f)) = updateMemo players memo config := by
  intro memo config
  induction config generalizing memo with
  | nil => intro _; rfl
  | cons p rest ih =>
    intro h
    have hp := h p (by simp)
    simp only [List.map_cons, updateMemo]
    rw [show (mapPair f p).p1 = f p.p1 from rfl, show (mapPair f p).p2 = f p.p2 from rfl,
      idxOf_map f players p.p1 (injOn_iff hinj hp.1),
      idxOf_map f players p.p2 (injOn_iff hinj hp.2)]
    exact ih _ fun q hq => h q (by simp [hq])

theorem allTeamsGenerated_map (f : γ → δ) (tc : TeamConfigurations γ) :
    allTeamsGenerated (mapState f tc) = allTeamsGenerated tc := by
  unfold allTeamsGenerated mapState
  simp

theorem createTeamsSim (f : γ → δ) (players : List γ)
    (hinj : ∀ a ∈ players, ∀ b ∈ players, f a = f b → a = b)
    (hfal : ∀ a ∈ players, JsValue.falsy (f a) = JsValue.falsy a) :
    ∀ (F S : Nat) (teams : List (List (Pairing γ))) (memo : List (List Nat)),
      createTeams S F (mapState f ⟨teams, players, memo⟩) =
        (createTeams S F ⟨teams, players, memo⟩).map (Option.map (mapState f)) := by
  intro F
  induction F with
  | zero => intro S teams memo; rfl
  | succ F ih =>
    intro S teams memo
    rw [createTeams_succ, createTeams_succ, allTeamsGenerated_map]
    by_cases hag : allTeamsGenerated (⟨teams, players, memo⟩ : TeamConfigurations γ) = true
    · rw [if_pos hag, if_pos hag]; rfl
    · rw [if_neg hag, if_neg hag]
      have hsim := searchSim f players memo hinj hfal S (SearchCall.createTeam [] players)
        (show callInv players (SearchCall.createTeam [] players) from ⟨by simp, fun x hx => hx⟩)
      simp only [mapCall, List.map_nil] at hsim
      simp only [mapState]
      rw [hsim]
      cases hs : search players memo S (.createTeam [] players) with
      | error e => rfl
      | ok pt =>
        obtain ⟨poss, config⟩ := pt
        simp only [Except.map]
        by_cases hposs : poss = true
        · subst hposs
          rw [if_pos (show (mapPT f ⟨true, config⟩).possible = true from rfl), if_pos rfl]
          have hmem : ∀ p ∈ config, p.p1 ∈ players ∧ p.p2 ∈ players :=
            search_members players memo S (SearchCall.createTeam [] players) config
              (show callInv players (SearchCall.createTeam [] players) from
                ⟨by simp, fun x hx => hx⟩) hs
          show createTeams S F
              ⟨(teams.map (List.map (mapPair f))) ++ [config.map (mapPair f)],
                players.map f, updateMemo (players.map f) memo (config.map (mapPair f))⟩ = _
          rw [updateMemo_map f players hinj memo config hmem]
          have := ih S (teams ++ [config]) (updateMemo players memo config)
          simp only [mapState, List.map_append, List.map_cons, List.map_nil] at this
          exact this
        · rw [if_neg (show ¬ (mapPT f ⟨poss, config⟩).possible = true from hposs), if_neg hposs]
          exact ih S teams memo

end SimLoop

/-! ### Fuel monotonicity: the fuel of the embedding is an artifact; as soon
as a run does not abort with the distinguished fuel error, giving it more
fuel cannot change its result.  Consequently a successfully returned
schedule is independent of the fuel bounds. -/

section Fuel

variable {γ : Type} [DecidableEq γ] [JsValue γ]
variable (players : List γ) (memo : List (List Nat))

theorem search_tryCons_errmk (fuel : Nat) (team : List (Pairing γ)) (choices : List γ)
    (a b : γ) (rest : List (γ × γ)) {e : String} (hmk : Pairing.mk? a b = .error e) :
    search players memo (fuel + 1) (.tryCands team choices ((a, b) :: rest)) = .error e := by
  rw [search_tryCons, hmk]

theorem search_tryCons_okmk (fuel : Nat) (team : List (Pairing γ)) (choices : List γ)
    (a b : γ) (rest : List (γ × γ)) {p : Pairing γ} (hmk : Pairing.mk? a b = .ok p) :
    search players memo (fuel + 1) (.tryCands team choices ((a, b) :: rest)) =
      match search players memo fuel (.createTeam (team ++ [p]) (without choices a b)) with
      | .error e => .error e
      | .ok pt =>
        if pt.possible then .ok pt
        else search players memo fuel (.tryCands team choices rest) := by
  rw [search_tryCons, hmk]

theorem search_tryCons_errrec (fuel : Nat) (team : List (Pairing γ)) (choices : List γ)
    (a b : γ) (rest : List (γ × γ)) {p : Pairing γ} {e : String}
    (hmk : Pairing.mk? a b = .ok p)
    (hrec : search players memo fuel (.createTeam (team ++ [p]) (without choices a b)) =
      .error e) :
    search players memo (fuel + 1) (.tryCands team choices ((a, b) :: rest)) = .error e := by
  rw [search_tryCons_okmk players memo fuel team choices a b rest hmk, hrec]

theorem search_tryCons_okrec (fuel : Nat) (team : List (Pairing γ)) (choices : List γ)
    (a b : γ) (rest : List (γ × γ)) {p : Pairing γ} {pt : PossibleTeam γ}
    (hmk : Pairing.mk? a b = .ok p)
    (hrec : search players memo fuel (.createTeam (team ++ [p]) (without choices a b)) =
      .ok pt) :
    search players memo (fuel + 1) (.tryCands team choices ((a, b) :: rest)) =
      if pt.possible then .ok pt
      else search players memo fuel (.tryCands team choices rest) := by
  rw [search_tryCons_okmk players memo fuel team choices a b rest hmk, hrec]

theorem createTeams_succ_err (S F : Nat) (tc : TeamConfigurations γ) {e : String}
    (hag : ¬ allTeamsGenerated tc = true)
    (hs : search tc.players tc.memo S (.createTeam [] tc.players) = .error e) :
    createTeams S (F + 1) tc = .error e := by
  rw [createTeams_succ, if_neg hag, hs]

theorem createTeams_succ_step (S F : Nat) (tc : TeamConfigurations γ) {pt : PossibleTeam γ}
    (hag : ¬ allTeamsGenerated tc = true)
    (hs : search tc.players tc.memo S (.createTeam [] tc.players) = .ok pt) :
    createTeams S (F + 1) tc =
      if pt.possible then
        createTeams S F
          { tc with
            teams := tc.teams ++ [pt.configuration],
            memo := updateMemo tc.players tc.memo pt.configuration }
      else createTeams S F tc := by
  rw [createTeams_succ, if_neg hag, hs]

theorem search_mono :
    ∀ (fuel : Nat) (call : SearchCall γ),
      search players memo fuel call ≠ .error "search fuel exhausted" →
      search players memo (fuel + 1) call = search players memo fuel call := by
  intro fuel
  induction fuel with
  | zero => intro call h; exact absurd (search_zero players memo call) h
  | succ fuel ih =>
    intro call h
    cases call with
    | createTeam team choices =>
      rw [search_createTeam, search_createTeam]
      by_cases hrc : repeatCheck players memo team = true
      · rw [if_pos hrc, if_pos hrc]
      · rw [if_neg hrc, if_neg hrc]
        by_cases hlen : choices.length = 0
        · rw [if_pos hlen, if_pos hlen]
        · rw [if_neg hlen, if_neg hlen]
          apply ih
          rw [search_createTeam, if_neg hrc, if_neg hlen] at h
          exact h
    | tryCands team choices cands =>
      cases cands with
      | nil => rw [search_tryNil, search_tryNil]
      | cons c rest =>
        obtain ⟨a, b⟩ := c
        cases hmk : Pairing.mk? a b with
        | error e =>
          rw [search_tryCons_errmk players memo (fuel + 1) team choices a b rest hmk,
            search_tryCons_errmk players memo fuel team choices a b rest hmk]
        | ok p =>
          cases hrecv : search players memo fuel
              (.createTeam (team ++ [p]) (without choices a b)) with
          | error e =>
            by_cases hfm : e = "search fuel exhausted"
            · subst hfm
              exact absurd
                (search_tryCons_errrec players memo fuel team choices a b rest hmk hrecv) h
            · have hne : search players memo fuel
                  (.createTeam (team ++ [p]) (without choices a b)) ≠
                  .error "search fuel exhausted" := by
                rw [hrecv]
                intro hh
                injection hh with hh2
                exact hfm hh2
              have h1 := (ih _ hne).trans hrecv
              rw [search_tryCons_errrec players memo (fuel + 1) team choices a b rest hmk h1,
                search_tryCons_errrec players memo fuel team choices a b rest hmk hrecv]
          | ok pt =>
            have hne : search players memo fuel
                (.createTeam (team ++ [p]) (without choices a b)) ≠
                .error "search fuel exhausted" := by
              rw [hrecv]; intro hh; cases hh
            have h1 := (ih _ hne).trans hrecv
            rw [search_tryCons_okrec players memo (fuel + 1) team choices a b rest hmk h1,
              search_tryCons_okrec players memo fuel team choices a b rest hmk hrecv]
            by_cases hposs : pt.possible = true
            · rw [if_pos hposs, if_pos hposs]
            · rw [if_neg hposs, if_neg hposs]
              apply ih
              intro hh
              apply h
              rw [search_tryCons_okrec players memo fuel team choices a b rest hmk hrecv,
                if_neg hposs, hh]

theorem createTeams_monoS :
    ∀ (F S : Nat) (tc r : TeamConfigurations γ), createTeams S F tc = .ok (some r) →
      createTeams (S + 1) F tc = .ok (some r) := by
  intro F
  induction F with
  | zero => intro S tc r h; rw [createTeams_zero] at h; simp at h
  | succ F ih =>
    intro S tc r h
    by_cases hag : allTeamsGenerated tc = true
    · rw [createTeams_succ, if_pos hag] at h
      rw [createTeams_succ, if_pos hag]
      exact h
    · cases hs : search tc.players tc.memo S (.createTeam [] tc.players) with
      | error e =>
        rw [createTeams_succ_err S F tc hag hs] at h
        cases h
      | ok pt =>
        have hne : search tc.players tc.memo S (.createTeam [] tc.players) ≠
            .error "search fuel exhausted" := by
          rw [hs]; intro hh; cases hh
        have hs2 : search tc.players tc.memo (S + 1) (.createTeam [] tc.players) = .ok pt :=
          (search_mono tc.players tc.memo S _ hne).trans hs
        rw [createTeams_succ_step S F tc hag hs] at h
        rw [createTeams_succ_step (S + 1) F tc hag hs2]
        by_cases hposs : pt.possible = true
        · rw [if_pos hposs] at h ⊢; exact ih S _ r h
        · rw [if_neg hposs] at h ⊢; exact ih S _ r h

theorem createTeams_monoF :
    ∀ (F S : Nat) (tc r : TeamConfigurations γ), createTeams S F tc = .ok (some r) →
      createTeams S (F + 1) tc = .ok (some r) := by
  intro F
  induction F with
  | zero => intro S tc r h; rw [createTeams_zero] at h; simp at h
  | succ F ih =>
    intro S tc r h
    by_cases hag : allTeamsGenerated tc = true
    · rw [createTeams_succ, if_pos hag] at h
      rw [createTeams_succ, if_pos hag]
      exact h
    · cases hs : search tc.players tc.memo S (.createTeam [] tc.players) with
      | error e =>
        rw [createTeams_succ_err S F tc hag hs] at h
        cases h
      | ok pt =>
        rw [createTeams_succ_step S F tc hag hs] at h
        rw [createTeams_succ_step S (F + 1) tc hag hs]
        by_cases hposs : pt.possible = true
        · rw [if_pos hposs] at h ⊢; exact ih S _ r h
        · rw [if_neg hposs] at h ⊢; exact ih S _ r h

theorem createTeams_le {S1 S2 F1 F2 : Nat} (hS : S1 ≤ S2) (hF : F1 ≤ F2)
    (tc r : TeamConfigurations γ) (h : createTeams S1 F1 tc = .ok (some r)) :
    createTeams S2 F2 tc = .ok (some r) := by
  have hstep1 : createTeams S2 F1 tc = .ok (some r) := by
    induction S2, hS using Nat.le_induction with
    | base => exact h
    | succ n hmn ih => exact createTeams_monoS F1 n tc r ih
  induction F2, hF using Nat.le_induction with
  | base => exact hstep1
  | succ n hmn ih => exact createTeams_monoF n S2 tc r ih

theorem createTeams_unique {S1 F1 S2 F2 : Nat} {tc r1 r2 : TeamConfigurations γ}
    (h1 : createTeams S1 F1 tc = .ok (some r1))
    (h2 : createTeams S2 F2 tc = .ok (some r2)) : r1 = r2 := by
  have e1 := createTeams_le (Nat.le_max_left S1 S2) (Nat.le_max_left F1 F2) tc r1 h1
  have e2 := createTeams_le (Nat.le_max_right S1 S2) (Nat.le_max_right F1 F2) tc r2 h2
  rw [e1] at e2
  injection e2 with e3
  injection e3

theorem allTeamsGenerated_of_ok :
    ∀ (F S : Nat) (tc st : TeamConfigurations γ), createTeams S F tc = .ok (some st) →
      allTeamsGenerated st = true := by
  intro F
  induction F with
  | zero => intro S tc st h; rw [createTeams_zero] at h; simp at h
  | succ F ih =>
    intro S tc st h
    by_cases hag : allTeamsGenerated tc = true
    · rw [createTeams_succ, if_pos hag] at h
      have h2 : tc = st := by
        injection h with h3
        injection h3
      exact h2 ▸ hag
    · cases hs : search tc.players tc.memo S (.createTeam [] tc.players) with
      | error e =>
        rw [createTeams_succ_err S F tc hag hs] at h
        cases h
      | ok pt =>
        rw [createTeams_succ_step S F tc hag hs] at h
        by_cases hposs : pt.possible = true
        · rw [if_pos hposs] at h; exact ih S _ st h
        · rw [if_neg hposs] at h; exact ih S _ st h

end Fuel

/-! ### Rosters containing a falsy identifier

With the fresh all-zero memo the repeat check never rejects, so along the
first candidate path the search keeps constructing pairings until the falsy
player enters one and the `Pairing` constructor throws; the exception
propagates out of `createTeams`.  Hence no engine whose roster contains a
falsy identifier ever returns a schedule. -/

section Falsy

variable {γ : Type} [DecidableEq γ] [JsValue γ]
variable (players : List γ) (memo : List (List Nat))

theorem repeatCheck_zero (hz : ∀ i j, mget memo i j = 0) (team : List (Pairing γ)) :
    repeatCheck players memo team = false := by
  unfold repeatCheck
  cases jsLast team with
  | none => rfl
  | some lp => simp [hz]

theorem without_cons2 {c0 c1 : γ} {cs : List γ} (hnd : (c0 :: c1 :: cs).Nodup) :
    without (c0 :: c1 :: cs) c0 c1 = cs := by
  unfold without
  simp only [List.filter_cons]
  rw [if_neg (by simp), if_neg (by simp)]
  apply List.filter_eq_self.mpr
  intro x hx
  obtain ⟨h0, hnd1⟩ := List.nodup_cons.mp hnd
  obtain ⟨h1, _⟩ := List.nodup_cons.mp hnd1
  have hx0 : ¬ x = c0 := fun hh => h0 (by simp [← hh, hx])
  have hx1 : ¬ x = c1 := fun hh => h1 (hh ▸ hx)
  simp [hx0, hx1]

theorem search_falsy_error (hz : ∀ i j, mget memo i j = 0) :
    ∀ (fuel : Nat) (team : List (Pairing γ)) (choices : List γ),
      choices.Nodup → 2 ∣ choices.length → (∃ x ∈ choices, JsValue.falsy x = true) →
      ∃ e, search players memo fuel (.createTeam team choices) = .error e := by
  intro fuel
  induction fuel using Nat.strong_induction_on with
  | _ fuel ih =>
    intro team choices hnd heven hfal
    match fuel with
    | 0 => exact ⟨_, rfl⟩
    | fuel + 1 =>
      obtain ⟨x, hxm, hxf⟩ := hfal
      obtain ⟨c0, c1, cs, rfl⟩ : ∃ c0 c1 cs, choices = c0 :: c1 :: cs := by
        cases choices with
        | nil => cases hxm
        | cons c0 rest =>
          cases rest with
          | nil => simp at heven
          | cons c1 cs => exact ⟨c0, c1, cs, rfl⟩
      rw [search_createTeam, repeatCheck_zero players memo hz team]
      rw [if_neg (by simp), if_neg (by simp)]
      have hcp : candPairs (c0 :: c1 :: cs) =
          (c0, c1) :: (cs.map (fun b => (c0, b)) ++ candPairs (c1 :: cs)) := rfl
      rw [hcp]
      match fuel with
      | 0 => exact ⟨_, rfl⟩
      | g + 1 =>
        cases hmk : Pairing.mk? c0 c1 with
        | error e =>
          exact ⟨e, search_tryCons_errmk players memo g team (c0 :: c1 :: cs) c0 c1 _ hmk⟩
        | ok p =>
          obtain ⟨hp, hf0, hf1, h01⟩ := mkPairing_ok hmk
          have hx0 : x ≠ c0 := fun hh => by rw [hh, hf0] at hxf; cases hxf
          have hx1 : x ≠ c1 := fun hh => by rw [hh, hf1] at hxf; cases hxf
          have hxcs : x ∈ cs := by
            rcases List.mem_cons.mp hxm with h | h
            · exact absurd h hx0
            · rcases List.mem_cons.mp h with h2 | h2
              · exact absurd h2 hx1
              · exact h2
          have hw : without (c0 :: c1 :: cs) c0 c1 = cs := without_cons2 hnd
          obtain ⟨e2, he2⟩ := ih g (by omega) (team ++ [p]) cs
            hnd.of_cons.of_cons
            (by simp only [List.length_cons] at heven ⊢; omega)
            ⟨x, hxcs, hxf⟩
          refine ⟨e2, search_tryCons_errrec players memo g team (c0 :: c1 :: cs) c0 c1 _ hmk ?_⟩
          rw [hw]
          exact he2

theorem allTeamsGenerated_init (ps : List γ) (hlen : ps.length = 8) :
    allTeamsGenerated (initState ps) = false := by
  unfold allTeamsGenerated initState
  simp only [hlen]
  rfl

theorem createTeams_falsy (ps : List γ) (hlen : ps.length = 8) (hnd : ps.Nodup)
    (hfal : ∃ x ∈ ps, JsValue.falsy x = true) :
    ∀ (F S : Nat) (st : TeamConfigurations γ), createTeams S F (initState ps) ≠ .ok (some st) := by
  intro F S st
  cases F with
  | zero => rw [createTeams_zero]; intro h; simp at h
  | succ F =>
    have hag : ¬ allTeamsGenerated (initState ps) = true := by
      rw [allTeamsGenerated_init ps hlen]; simp
    obtain ⟨e, he⟩ := search_falsy_error ps
      (List.replicate ps.length (List.replicate ps.length 0))
      (fun i j => mget_replicate_zero ps.length i j) S [] ps hnd (by rw [hlen]; decide) hfal
    rw [createTeams_succ_err S F (initState ps) hag he]
    intro h
    cases h

end Falsy

/-! ### The in-round invariant behind the repeat check

Each pairing is checked against the memo exactly once, namely when it is
the most recently added pairing of the partial round at the entry of the
next recursive call; therefore in every reachable invocation all pairings
of the partial round except possibly the last have already been checked,
and every pairing of a successfully returned round is unused in the memo. -/

section Unused

variable {γ : Type} [DecidableEq γ] [JsValue γ]
variable (players : List γ) (memo : List (List Nat))

/-- The pairing `p` has not yet occurred in an accepted round: its memo
entry is unset. -/
def pairUnused (players : List γ) (memo : List (List Nat)) (p : Pairing γ) : Prop :=
  mget memo (idxOf p.p1 players) (idxOf p.p2 players) = 0

/-- The invariant of the reachable recursive invocations: on entry into
`_createTeam` every pairing of the partial round except possibly the most
recently added one has been checked (is unused); once the entry check has
passed and the candidate loops are running, all of them have. -/
def lastCheckedInv (players : List γ) (memo : List (List Nat)) : SearchCall γ → Prop
  | .createTeam team _ => ∀ p ∈ team.dropLast, pairUnused players memo p
  | .tryCands team _ _ => ∀ p ∈ team, pairUnused players memo p

theorem search_unused :
    ∀ (fuel : Nat) (call : SearchCall γ) (t : List (Pairing γ)),
      lastCheckedInv players memo call →
      search players memo fuel call = .ok ⟨true, t⟩ →
      ∀ p ∈ t, pairUnused players memo p := by
  intro fuel
  induction fuel with
  | zero => intro call t _ h; cases h
  | succ fuel ih =>
    intro call t hcall hrun
    cases call with
    | createTeam team choices =>
      rw [search_createTeam] at hrun
      by_cases hrc : repeatCheck players memo team = true
      · rw [if_pos hrc] at hrun; simp at hrun
      · have hall : ∀ p ∈ team, pairUnused players memo p := by
          intro p hp
          cases hl : jsLast team with
          | none => rw [jsLast_none hl] at hp; cases hp
          | some lp =>
            have hlp : pairUnused players memo lp := by
              unfold repeatCheck at hrc
              rw [hl] at hrc
              simpa [pairUnused, bne_iff_ne, not_not] using hrc
            have hdec := jsLast_decomp hl
            rw [← hdec] at hp
            rcases List.mem_append.mp hp with h2 | h2
            · exact hcall p h2
            · simp only [List.mem_singleton] at h2
              exact h2 ▸ hlp
        rw [if_neg hrc] at hrun
        by_cases hlen : choices.length = 0
        · rw [if_pos hlen] at hrun
          simp only [Except.ok.injEq, PossibleTeam.mk.injEq, true_and] at hrun
          exact hrun ▸ hall
        · rw [if_neg hlen] at hrun
          exact ih (SearchCall.tryCands team choices (candPairs choices)) t hall hrun
    | tryCands team choices cands =>
      cases cands with
      | nil => rw [search_tryNil] at hrun; simp at hrun
      | cons c rest =>
        obtain ⟨a, b⟩ := c
        rw [search_tryCons] at hrun
        split at hrun
        · cases hrun
        · rename_i p hmk
          split at hrun
          · cases hrun
          · rename_i pt hrecv
            split at hrun
            · rename_i hposs
              injection hrun with h2
              subst h2
              exact ih (SearchCall.createTeam (team ++ [p]) (without choices a b)) t
                (show ∀ q ∈ (team ++ [p]).dropLast, pairUnused players memo q by
                  rw [List.dropLast_concat]
                  exact hcall) hrecv
            · exact ih (SearchCall.tryCands team choices rest) t hcall hrun

end Unused

/-! ### Transport of the counting and membership properties along a
player renaming -/

section Transport

variable {γ δ : Type} [DecidableEq γ] [JsValue γ] [DecidableEq δ] [JsValue δ]

theorem roundMembers_map (f : γ → δ) :
    ∀ r : List (Pairing γ), roundMembers (r.map (mapPair f)) = (roundMembers r).map f := by
  intro r
  induction r with
  | nil => rfl
  | cons p rest ih => simp [roundMembers, mapPair, ih]

theorem pairHas_map (f : γ → δ) {S : List γ}
    (hinj : ∀ x ∈ S, ∀ y ∈ S, f x = f y → x = y)
    {a b : γ} (ha : a ∈ S) (hb : b ∈ S) {p : Pairing γ}
    (hp : p.p1 ∈ S ∧ p.p2 ∈ S) :
    pairHas (f a) (f b) (mapPair f p) = pairHas a b p := by
  unfold pairHas mapPair
  rw [show (⟨f p.p1, f p.p2⟩ : Pairing δ).p1 = f p.p1 from rfl,
    show (⟨f p.p1, f p.p2⟩ : Pairing δ).p2 = f p.p2 from rfl,
    decide_eq_decide.mpr (injOn_iff hinj ha p.p1 hp.1),
    decide_eq_decide.mpr (injOn_iff hinj hb p.p2 hp.2),
    decide_eq_decide.mpr (injOn_iff hinj hb p.p1 hp.1),
    decide_eq_decide.mpr (injOn_iff hinj ha p.p2 hp.2)]

theorem countP_pairHas_map (f : γ → δ) {S : List γ}
    (hinj : ∀ x ∈ S, ∀ y ∈ S, f x = f y → x = y)
    {a b : γ} (ha : a ∈ S) (hb : b ∈ S) :
    ∀ (r : List (Pairing γ)), (∀ p ∈ r, p.p1 ∈ S ∧ p.p2 ∈ S) →
      (r.map (mapPair f)).countP (pairHas (f a) (f b)) = r.countP (pairHas a b) := by
  intro r
  induction r with
  | nil => intro _; rfl
  | cons p rest ih =>
    intro h
    simp only [List.map_cons, List.countP_cons]
    rw [pairHas_map f hinj ha hb (h p (by simp)), ih fun q hq => h q (by simp [hq])]

theorem pairOccTotal_map (f : γ → δ) {S : List γ}
    (hinj : ∀ x ∈ S, ∀ y ∈ S, f x = f y → x = y)
    {a b : γ} (ha : a ∈ S) (hb : b ∈ S) :
    ∀ (teams : List (List (Pairing γ))), (∀ r ∈ teams, ∀ p ∈ r, p.p1 ∈ S ∧ p.p2 ∈ S) →
      pairOccTotal (f a) (f b) (teams.map (List.map (mapPair f))) = pairOccTotal a b teams := by
  intro teams
  induction teams with
  | nil => intro _; rfl
  | cons r rest ih =>
    intro h
    simp only [List.map_cons, pairOccTotal]
    rw [countP_pairHas_map f hinj ha hb r (h r (by simp)), ih fun r2 hr2 => h r2 (by simp [hr2])]

end Transport

/-! ### Concrete facts about the canonical run, checked by evaluation -/

theorem canonTeams_members :
    ∀ r ∈ canonTeams, ∀ p ∈ r, p.p1 ∈ canonPlayers ∧ p.p2 ∈ canonPlayers := by decide

theorem canonTeams_pairOcc :
    ∀ a ∈ canonPlayers, ∀ b ∈ canonPlayers, a ≠ b → pairOccTotal a b canonTeams = 1 := by decide

theorem canonTeams_rounds :
    ∀ r ∈ canonTeams, r.length = 4 ∧ (roundMembers r).Nodup ∧
      (roundMembers r).Perm canonPlayers := by decide

theorem canonNat_falsy : ∀ n ∈ canonPlayers, JsValue.falsy n = false := by decide

/-! ### Bridging an arbitrary valid roster to the canonical run -/

section Bridge

variable {δ : Type} [DecidableEq δ] [JsValue δ]

theorem exists8 {ps : List δ} (h : ps.length = 8) :
    ∃ a1 a2 a3 a4 a5 a6 a7 a8, ps = [a1, a2, a3, a4, a5, a6, a7, a8] := by
  rcases ps with _ | ⟨a1, _ | ⟨a2, _ | ⟨a3, _ | ⟨a4, _ | ⟨a5, _ | ⟨a6, _ |
    ⟨a7, _ | ⟨a8, _ | ⟨a9, tl⟩⟩⟩⟩⟩⟩⟩⟩⟩ <;>
    first
      | exact ⟨a1, a2, a3, a4, a5, a6, a7, a8, rfl⟩
      | (exfalso; simp only [List.length_cons, List.length_nil] at h; omega)

theorem canon_to_roster (ps : List δ) (hlen : ps.length = 8) (hnd : ps.Nodup)
    (htr : ∀ x ∈ ps, JsValue.falsy x = false) :
    ∃ f : Nat → δ, canonPlayers.map f = ps ∧
      (∀ a ∈ canonPlayers, ∀ b ∈ canonPlayers, f a = f b → a = b) ∧
      (∀ a ∈ canonPlayers, JsValue.falsy (f a) = JsValue.falsy a) := by
  obtain ⟨a1, a2, a3, a4, a5, a6, a7, a8, hps⟩ := exists8 hlen
  refine ⟨fun n => ps.getD (n - 1) a1, ?_, ?_, ?_⟩
  · rw [hps]; rfl
  · intro a ha b hb h
    have hbd : ∀ n ∈ canonPlayers, 1 ≤ n ∧ n ≤ 8 := by decide
    have h1 : a - 1 < ps.length := by have := hbd a ha; omega
    have h2 : b - 1 < ps.length := by have := hbd b hb; omega
    change ps.getD (a - 1) a1 = ps.getD (b - 1) a1 at h
    rw [List.getD_eq_getElem ps a1 h1, List.getD_eq_getElem ps a1 h2] at h
    have h3 : a - 1 = b - 1 := by
      have := (hnd.get_inj_iff (i := ⟨a - 1, h1⟩) (j := ⟨b - 1, h2⟩)).mp (by simpa using h)
      simpa using this
    have := hbd a ha
    have := hbd b hb
    omega
  · intro a ha
    have hbd : ∀ n ∈ canonPlayers, 1 ≤ n ∧ n ≤ 8 := by decide
    have h1 : a - 1 < ps.length := by have := hbd a ha; omega
    have hmem : ps.getD (a - 1) a1 ∈ ps := by
      rw [List.getD_eq_getElem ps a1 h1]
      exact List.getElem_mem h1
    rw [htr _ hmem, canonNat_falsy a ha]

theorem initState_eq_mapState (f : Nat → δ) (ps : List δ) (hmap : canonPlayers.map f = ps) :
    initState ps = mapState f (initState canonPlayers) := by
  subst hmap
  unfold initState mapState
  simp

theorem createTeams_roster (ps : List δ) (hlen : ps.length = 8) (hnd : ps.Nodup)
    (htr : ∀ x ∈ ps, JsValue.falsy x = false) :
    ∃ f : Nat → δ, canonPlayers.map f = ps ∧
      (∀ a ∈ canonPlayers, ∀ b ∈ canonPlayers, f a = f b → a = b) ∧
      createTeams 32 8 (initState ps) = .ok (some (mapState f canonFinal)) := by
  obtain ⟨f, hmap, hinj, hfal⟩ := canon_to_roster ps hlen hnd htr
  refine ⟨f, hmap, hinj, ?_⟩
  rw [initState_eq_mapState f ps hmap]
  have := createTeamsSim f canonPlayers hinj hfal 8 32 []
    (List.replicate canonPlayers.length (List.replicate canonPlayers.length 0))
  rw [show (⟨[], canonPlayers,
        List.replicate canonPlayers.length (List.replicate canonPlayers.length 0)⟩ :
      TeamConfigurations Nat) = initState canonPlayers from rfl] at this
  rw [this, canonEval]
  rfl

theorem run_determined (ps : List δ) (hlen : ps.length = 8) (hnd : ps.Nodup)
    (htr : ∀ x ∈ ps, JsValue.falsy x = false) {F S : Nat} {st : TeamConfigurations δ}
    (h : createTeams S F (initState ps) = .ok (some st)) :
    ∃ f : Nat → δ, canonPlayers.map f = ps ∧
      (∀ a ∈ canonPlayers, ∀ b ∈ canonPlayers, f a = f b → a = b) ∧
      st = mapState f canonFinal := by
  obtain ⟨f, hmap, hinj, hrun⟩ := createTeams_roster ps hlen hnd htr
  exact ⟨f, hmap, hinj, createTeams_unique h hrun⟩

end Bridge

/-! ### A roster whose run returns a schedule contains no falsy identifier -/

section Truthy

variable {γ : Type} [DecidableEq γ] [JsValue γ]

theorem truthy_of_ok (ps : List γ) (hlen : ps.length = 8) (hnd : ps.Nodup)
    {F S : Nat} {st : TeamConfigurations γ}
    (hrun : createTeams S F (initState ps) = .ok (some st)) :
    ∀ x ∈ ps, JsValue.falsy x = false := by
  by_contra htr
  push_neg at htr
  obtain ⟨x, hx, hxf⟩ := htr
  have hxt : JsValue.falsy x = true := by
    cases hfx : JsValue.falsy x
    · exact absurd hfx hxf
    · rfl
  exact createTeams_falsy ps hlen hnd ⟨x, hx, hxt⟩ F S st hrun

end Truthy

/-! ### The stuck constraint state of claim C5

A memo in which every pair is marked used except the two pairs
`{players[0], players[1]}` and `{players[0], players[2]}`: completion has
not been reached, no perfect matching of unused pairs exists, so the
round search reports `possible = false` — and the `while` loop of
`createTeams` retries forever with unchanged state instead of surfacing
an error. -/

def stuckMemo : List (List Nat) :=
  [[0, 0, 0, 1, 1, 1, 1, 1],
   [0, 0, 1, 1, 1, 1, 1, 1],
   [0, 1, 0, 1, 1, 1, 1, 1],
   [1, 1, 1, 0, 1, 1, 1, 1],
   [1, 1, 1, 1, 0, 1, 1, 1],
   [1, 1, 1, 1, 1, 0, 1, 1],
   [1, 1, 1, 1, 1, 1, 0, 1],
   [1, 1, 1, 1, 1, 1, 1, 0]]

def stuckState : TeamConfigurations String := ⟨[], strPlayers, stuckMemo⟩

theorem stuck_search :
    search strPlayers stuckMemo 32 (.createTeam [] strPlayers) = .ok ⟨false, []⟩ := rfl

/-! ### The claims -/

/-- C1: for every roster of exactly 8 distinct identifiers, in the schedule
returned by `createTeams` every unordered pair of distinct roster players
occurs as a `Pairing` in exactly one round across the whole schedule: no
pair is missing and no pair occurs in two rounds. -/
theorem claim_C1 (ps : List String) (F S : Nat) (st : TeamConfigurations String)
    (hlen : ps.length = 8) (hnd : ps.Nodup)
    (hrun : createTeams S F (initState ps) = .ok (some st)) :
    ∀ a ∈ ps, ∀ b ∈ ps, a ≠ b → pairOccTotal a b st.teams = 1 := by
  have htr := truthy_of_ok ps hlen hnd hrun
  obtain ⟨f, hmap, hinj, hst⟩ := run_determined ps hlen hnd htr hrun
  subst hst
  intro a ha b hb hab
  rw [← hmap] at ha hb
  obtain ⟨na, hna, rfl⟩ := List.mem_map.mp ha
  obtain ⟨nb, hnb, rfl⟩ := List.mem_map.mp hb
  have hnab : na ≠ nb := fun hh => hab (hh ▸ rfl)
  show pairOccTotal (f na) (f nb) (canonTeams.map (List.map (mapPair f))) = 1
  rw [pairOccTotal_map f hinj hna hnb canonTeams canonTeams_members]
  exact canonTeams_pairOcc na hna nb hnb hnab

theorem claim_C1_witness : pairOccTotal "1" "2" strFinal.teams = 1 :=
  claim_C1 strPlayers 8 32 strFinal (by decide) (by decide) strRunEq
    "1" (by decide) "2" (by decide) (by decide)

/-- C2: for every roster of exactly 8 distinct identifiers, every round in
the schedule returned by `createTeams` consists of exactly 4 pairings
whose combined membership is, without repetition, exactly the 8-player
roster (so the 4 pairs are pairwise disjoint and partition the roster). -/
theorem claim_C2 (ps : List String) (F S : Nat) (st : TeamConfigurations String)
    (hlen : ps.length = 8) (hnd : ps.Nodup)
    (hrun : createTeams S F (initState ps) = .ok (some st)) :
    ∀ r ∈ st.teams, r.length = 4 ∧ (roundMembers r).Nodup ∧ (roundMembers r).Perm ps := by
  have htr := truthy_of_ok ps hlen hnd hrun
  obtain ⟨f, hmap, hinj, hst⟩ := run_determined ps hlen hnd htr hrun
  subst hst
  intro r hr
  rw [show (mapState f canonFinal).teams = canonTeams.map (List.map (mapPair f)) from rfl] at hr
  obtain ⟨r0, hr0, rfl⟩ := List.mem_map.mp hr
  obtain ⟨hlen4, hnd0, hperm⟩ := canonTeams_rounds r0 hr0
  refine ⟨by simp [hlen4], ?_, ?_⟩
  · rw [roundMembers_map]
    refine List.Nodup.map_on ?_ hnd0
    intro x hx y hy hxy
    exact hinj x (hperm.mem_iff.mp hx) y (hperm.mem_iff.mp hy) hxy
  · rw [roundMembers_map, ← hmap]
    exact hperm.map f

theorem claim_C2_witness :
    [(⟨"1", "2"⟩ : Pairing String), ⟨"3", "4"⟩, ⟨"5", "6"⟩, ⟨"7", "8"⟩].length = 4 ∧
    (roundMembers [(⟨"1", "2"⟩ : Pairing String), ⟨"3", "4"⟩, ⟨"5", "6"⟩, ⟨"7", "8"⟩]).Nodup ∧
    (roundMembers [(⟨"1", "2"⟩ : Pairing String), ⟨"3", "4"⟩, ⟨"5", "6"⟩,
      ⟨"7", "8"⟩]).Perm strPlayers :=
  claim_C2 strPlayers 8 32 strFinal (by decide) (by decide) strRunEq
    [⟨"1", "2"⟩, ⟨"3", "4"⟩, ⟨"5", "6"⟩, ⟨"7", "8"⟩] (by decide)

/-- C3: for every roster of exactly 8 distinct identifiers, the schedule
returned by `createTeams` contains exactly 7 rounds, and on return the
completion predicate `_allTeamsGenerated` holds: every row of the memo
matrix sums to 7. -/
theorem claim_C3 (ps : List String) (F S : Nat) (st : TeamConfigurations String)
    (hlen : ps.length = 8) (hnd : ps.Nodup)
    (hrun : createTeams S F (initState ps) = .ok (some st)) :
    st.teams.length = 7 ∧ allTeamsGenerated st = true := by
  have htr := truthy_of_ok ps hlen hnd hrun
  obtain ⟨f, hmap, hinj, hst⟩ := run_determined ps hlen hnd htr hrun
  refine ⟨?_, allTeamsGenerated_of_ok F S _ st hrun⟩
  subst hst
  show (canonTeams.map (List.map (mapPair f))).length = 7
  rw [List.length_map]
  rfl

theorem claim_C3_witness : strFinal.teams.length = 7 ∧ allTeamsGenerated strFinal = true :=
  claim_C3 strPlayers 8 32 strFinal (by decide) (by decide) strRunEq

/-- C4 (amended): for every roster of exactly 8 distinct truthy (non-empty)
identifiers, `createTeams` terminates with a completed schedule: the while
loop reaches completion within 8 iterations, the round search always
succeeding.  (The original claim, quantified over all distinct
identifiers, fails for a roster containing the empty string, see
`claim_C4_cex`.) -/
theorem claim_C4 (ps : List String) (hlen : ps.length = 8) (hnd : ps.Nodup)
    (htr : ∀ x ∈ ps, x ≠ "") :
    ∃ st, createTeams 32 8 (initState ps) = .ok (some st) := by
  have htr2 : ∀ x ∈ ps, JsValue.falsy x = false := by
    intro x hx
    show (x == "") = false
    exact beq_eq_false_iff_ne.mpr (htr x hx)
  obtain ⟨f, _, _, hrun⟩ := createTeams_roster ps hlen hnd htr2
  exact ⟨_, hrun⟩

theorem claim_C4_witness :
    ∃ st, createTeams 32 8
      (initState ["a", "b", "c", "d", "e", "f", "g", "h"]) = .ok (some st) :=
  claim_C4 ["a", "b", "c", "d", "e", "f", "g", "h"] (by decide) (by decide) (by decide)

/-- C4 counterexample: the roster `["", "2", …, "8"]` consists of 8
distinct identifiers, yet `createTeams` never reaches completion on it (at
every fuel the run aborts with the pairing exception rather than
completing the loop). -/
theorem claim_C4_cex :
    (["", "2", "3", "4", "5", "6", "7", "8"] : List String).length = 8 ∧
    (["", "2", "3", "4", "5", "6", "7", "8"] : List String).Nodup ∧
    createTeams 32 8 (initState ["", "2", "3", "4", "5", "6", "7", "8"]) =
      .error "A pairing must include two unique players." ∧
    ∀ (F S : Nat) (st : TeamConfigurations String),
      createTeams S F (initState ["", "2", "3", "4", "5", "6", "7", "8"]) ≠ .ok (some st) := by
  refine ⟨rfl, by decide, rfl, ?_⟩
  intro F S st
  exact createTeams_falsy ["", "2", "3", "4", "5", "6", "7", "8"] rfl (by decide)
    ⟨"", by simp, rfl⟩ F S st

/-- C5: the code does not satisfy the claim: in a state where the
completion predicate is false and the top-level round search reports
`possible = false`, the `while` loop of `createTeams` silently retries
forever with unchanged state (the loop body ignores the failure), so at
every loop fuel the run is still in progress (`.ok none`) and no error is
ever surfaced to the caller. -/
theorem claim_C5 :
    allTeamsGenerated stuckState = false ∧
    search stuckState.players stuckState.memo 32 (.createTeam [] stuckState.players) =
      .ok ⟨false, []⟩ ∧
    ∀ F : Nat, createTeams 32 F stuckState = .ok none := by
  refine ⟨rfl, rfl, ?_⟩
  intro F
  induction F with
  | zero => rfl
  | succ F ih =>
    rw [createTeams_succ_step 32 F stuckState (by intro hh; cases hh) stuck_search]
    rw [if_neg (by simp)]
    exact ih

/-- C6: determinism: two runs of `createTeams` from the engine state of the
same roster that both return a schedule return the identical schedule
(the search explores candidates in a fixed deterministic order, and the
result does not depend on the fuel bounds of the embedding). -/
theorem claim_C6 (ps : List String) (F1 S1 F2 S2 : Nat)
    (st1 st2 : TeamConfigurations String)
    (h1 : createTeams S1 F1 (initState ps) = .ok (some st1))
    (h2 : createTeams S2 F2 (initState ps) = .ok (some st2)) :
    st1.teams = st2.teams := by
  rw [createTeams_unique h1 h2]

theorem claim_C6_witness : strFinal.teams = strFinal.teams :=
  claim_C6 strPlayers 8 32 8 32 strFinal strFinal strRunEq strRunEq

/-- C7: on the roster `["1", …, "8"]` of the program's first instantiation,
the schedule returned by `createTeams` has `[(1,2), (3,4), (5,6), (7,8)]`
as its first round, consists of 7 rounds of 4 pairings (28 pairings in
total), and contains every 2-combination of the 8 identifiers exactly
once. -/
theorem claim_C7 (st : TeamConfigurations String)
    (h : createTeams 32 8 (initState strPlayers) = .ok (some st)) :
    st.teams.headD [] = [⟨"1", "2"⟩, ⟨"3", "4"⟩, ⟨"5", "6"⟩, ⟨"7", "8"⟩] ∧
    st.teams.length = 7 ∧
    (∀ r ∈ st.teams, r.length = 4) ∧
    ∀ a ∈ strPlayers, ∀ b ∈ strPlayers, a ≠ b → pairOccTotal a b st.teams = 1 := by
  rw [strRunEq] at h
  injection h with h2
  injection h2 with h3
  subst h3
  exact ⟨rfl, rfl, by decide, by decide⟩

theorem claim_C7_witness :
    strFinal.teams.headD [] = [⟨"1", "2"⟩, ⟨"3", "4"⟩, ⟨"5", "6"⟩, ⟨"7", "8"⟩] ∧
    strFinal.teams.length = 7 ∧
    pairOccTotal "1" "2" strFinal.teams = 1 :=
  ⟨(claim_C7 strFinal strRunEq).1, (claim_C7 strFinal strRunEq).2.1,
   (claim_C7 strFinal strRunEq).2.2.2 "1" (by decide) "2" (by decide) (by decide)⟩

/-- C8: in the round search, every pairing of the partial round except
possibly the most recently added one has already been checked against the
memo (each pairing is checked exactly once, when it is the last-added
pairing, at the entry of the next recursive call); consequently, whenever
the search returns `possible = true`, every pairing of the returned round
was unused in the memo. -/
theorem claim_C8 (players : List String) (memo : List (List Nat)) (fuel : Nat)
    (team : List (Pairing String)) (choices : List String) (t : List (Pairing String))
    (hchecked : ∀ p ∈ team.dropLast, pairUnused players memo p)
    (hok : search players memo fuel (.createTeam team choices) = .ok ⟨true, t⟩) :
    ∀ p ∈ t, pairUnused players memo p :=
  search_unused players memo fuel (.createTeam team choices) t hchecked hok

theorem claim_C8_witness :
    pairUnused strPlayers (List.replicate 8 (List.replicate 8 0)) ⟨"1", "2"⟩ :=
  claim_C8 strPlayers (List.replicate 8 (List.replicate 8 0)) 32 [] strPlayers
    [⟨"1", "2"⟩, ⟨"3", "4"⟩, ⟨"5", "6"⟩, ⟨"7", "8"⟩]
    (by simp) rfl ⟨"1", "2"⟩ (by decide)

/-- C9: constructing the engine with a roster whose size is not exactly 8,
or with a roster containing a duplicate identifier, fails with the
roster-validation error; for every roster of exactly 8 distinct
identifiers, construction succeeds. -/
theorem claim_C9 (ps : List String) :
    ((¬ ps.Nodup ∨ ps.length ≠ 8) → ∃ e, TeamConfigurations.mk? ps = .error e) ∧
    (ps.Nodup ∧ ps.length = 8 → TeamConfigurations.mk? ps = .ok (initState ps)) := by
  constructor
  · intro h
    unfold TeamConfigurations.mk?
    by_cases hu : (jsUnique ps).length = ps.length
    · have hnd := (jsUnique_length_iff ps).mp hu
      have hl : ps.length ≠ 8 := by
        rcases h with h | h
        · exact absurd hnd h
        · exact h
      rw [if_neg (fun hh => hh hu), if_pos hl]
      exact ⟨_, rfl⟩
    · rw [if_pos hu]
      exact ⟨_, rfl⟩
  · rintro ⟨hnd, hlen⟩
    unfold TeamConfigurations.mk?
    rw [if_neg (fun hh => hh ((jsUnique_length_iff ps).mpr hnd)), if_neg (fun hh => hh hlen)]

theorem claim_C9_witness :
    (∃ e, TeamConfigurations.mk? ["a", "b", "c", "d", "e", "f", "g"] = .error e) ∧
    TeamConfigurations.mk? ["a", "b", "c", "d", "e", "f", "g", "h"] =
      .ok (initState ["a", "b", "c", "d", "e", "f", "g", "h"]) :=
  ⟨(claim_C9 ["a", "b", "c", "d", "e", "f", "g"]).1 (Or.inr (by decide)),
   (claim_C9 ["a", "b", "c", "d", "e", "f", "g", "h"]).2 ⟨by decide, by decide⟩⟩

/-- C10: the roster `["", "2", …, "8"]` consists of 8 distinct string
identifiers and is accepted by the `TeamConfigurations` constructor, yet
`createTeams` throws the pair-construction error on it: the `Pairing`
constructor rejects any falsy player (such as `""`), not only equal or
absent players, and the empty-string player fails as soon as it enters the
first candidate pair. -/
theorem claim_C10 :
    TeamConfigurations.mk? ["", "2", "3", "4", "5", "6", "7", "8"] =
      .ok (initState ["", "2", "3", "4", "5", "6", "7", "8"]) ∧
    Pairing.mk? "" "2" =
      (.error "A pairing must include two unique players." :
        Except String (Pairing String)) ∧
    createTeams 32 8 (initState ["", "2", "3", "4", "5", "6", "7", "8"]) =
      .error "A pairing must include two unique players." :=
  ⟨rfl, rfl, rfl⟩
